import Mathlib

/-!
Verification of the `multidump` SQL dump tool (src/main.rs).

Lines of the dump are embedded as `List Char`; the Rust functions
`scan_sql_dump`, `split_sql_dump` and `import_sql_files` are embedded as pure
Lean functions over line lists.  File I/O is modelled by returning the list of
(file name, file content) pairs the splitter writes, and the import
orchestrator is modelled by the deterministic trace of spawn/join/remove
operations the main thread performs, together with the log lines and the final
result.  A `none` result of the import model stands for the Rust panic raised
by `slice::chunks(0)`.
-/

namespace Multidump

/-- A line of the source dump, as its character sequence (Rust `String` line). -/
abbrev Line := List Char

/-- The newline character the splitter appends after each buffered line. -/
def nl : Char := '\n'

/-- The backtick delimiter (code point 96) used in `line.split('\x60')`. -/
def backtick : Char := Char.ofNat 96

/-- Characters of the table-start marker literal "DROP TABLE". -/
def dropMarker : Line := ['D', 'R', 'O', 'P', ' ', 'T', 'A', 'B', 'L', 'E']

/-- Characters of the table-end marker literal "UNLOCK TABLES;". -/
def unlockMarker : Line := ['U', 'N', 'L', 'O', 'C', 'K', ' ', 'T', 'A', 'B', 'L', 'E', 'S', ';']

/-- Rust `line.starts_with("DROP TABLE")`. -/
def isDrop (l : Line) : Bool := dropMarker.isPrefixOf l

/-- Rust `line.starts_with("UNLOCK TABLES;")`. -/
def isUnlock (l : Line) : Bool := unlockMarker.isPrefixOf l

/-- Rust `lines.join("\n")`: the newline-joined string of a line list. -/
def joinLines (ls : List Line) : List Char := List.intercalate [nl] ls

/-- Rust `str::split(c)`: split a character list at every occurrence of `c`.
The result is never empty; a separator at the end yields a trailing empty
piece, and splitting the empty string yields `[[]]`. -/
def splitChar (c : Char) : List Char → List (List Char)
  | [] => [[]]
  | x :: xs =>
    if x = c then [] :: splitChar c xs
    else
      match splitChar c xs with
      | [] => [[x]]
      | y :: ys => (x :: y) :: ys

/-- Rust `line.split('\x60').nth(1).unwrap_or("")` (src/main.rs:129): the
table identifier extracted from a table-start line. -/
def tableName (line : Line) : Line := (splitChar backtick line).getD 1 []

/-! ## Scanner (`scan_sql_dump`, src/main.rs:68-104) -/

/-- The scanner's loop state: the preamble buffer, the postamble candidate
buffer (every line is pushed to it), the `in_preamble` flag and the index of
the last observed table-end marker. -/
structure ScanState where
  preamble : List Line
  postamble : List Line
  in_preamble : Bool
  last_unlock_line : Option Nat
deriving Repr, DecidableEq

/-- One iteration of the scanner's `for (index, line)` loop
(src/main.rs:77-94): preamble handling, then end-marker tracking (on the
already-updated flag), then the unconditional push to the postamble buffer. -/
def scanStep (st : ScanState) (index : Nat) (line : Line) : ScanState :=
  let st1 :=
    if st.in_preamble then
      if isDrop line then { st with in_preamble := false }
      else { st with preamble := st.preamble ++ [line] }
    else st
  let st2 :=
    if !st1.in_preamble && isUnlock line then { st1 with last_unlock_line := some index }
    else st1
  { st2 with postamble := st2.postamble ++ [line] }

/-- The scanner's loop over the enumerated lines, carrying the running index. -/
def scanLoop (idx : Nat) (st : ScanState) : List Line → ScanState
  | [] => st
  | l :: ls => scanLoop (idx + 1) (scanStep st idx l) ls

/-- Rust `scan_sql_dump` (src/main.rs:68-104) on the list of lines of the
dump: returns the newline-joined preamble and postamble strings.  The final
`drain(0..=last_unlock_index)` is the `List.drop (i + 1)`; if no end marker
was recorded the buffer is cleared. -/
def scan_sql_dump (lines : List Line) : List Char × List Char :=
  let st := scanLoop 0 ⟨[], [], true, none⟩ lines
  let post :=
    match st.last_unlock_line with
    | some i => st.postamble.drop (i + 1)
    | none => []
  (joinLines st.preamble, joinLines post)

/-! ## Splitter (`split_sql_dump`, src/main.rs:106-162) -/

/-- The splitter's loop state: the open output file (its table name and the
bytes written so far), the buffered lines (each stored with its trailing
newline, mirroring `table_lines.push(line + "\n")`), and the finalized files
in the order they were closed. -/
structure SplitState where
  table_file : Option (Line × List Char)
  table_lines : List (List Char)
  written : List (Line × List Char)
deriving Repr, DecidableEq

/-- One iteration of the splitter's loop (src/main.rs:117-152): the
table-start branch (finalize the open file, open a fresh one and write
`preamble + "\n" + line + "\n"`), the buffering branch, and then the
table-end check on the resulting state (finalize with buffer + postamble, or
just clear the buffer when no file is open). -/
def splitStep (preamble postamble : List Char) (st : SplitState) (line : Line) : SplitState :=
  let st1 :=
    if isDrop line then
      let written :=
        match st.table_file with
        | some f => st.written ++ [(f.1, f.2 ++ st.table_lines.flatten ++ postamble)]
        | none => st.written
      { table_file := some (tableName line, preamble ++ [nl] ++ (line ++ [nl]))
        table_lines := []
        written := written }
    else { st with table_lines := st.table_lines ++ [line ++ [nl]] }
  if isUnlock line then
    match st1.table_file with
    | some f =>
      { table_file := none
        table_lines := []
        written := st1.written ++ [(f.1, f.2 ++ st1.table_lines.flatten ++ postamble)] }
    | none => { st1 with table_lines := [] }
  else st1

/-- The splitter's loop over the lines. -/
def splitLoop (preamble postamble : List Char) (st : SplitState) : List Line → SplitState
  | [] => st
  | l :: ls => splitLoop preamble postamble (splitStep preamble postamble st l) ls

/-- Rust `split_sql_dump` (src/main.rs:106-162) on the list of lines: the
sequence of files it writes, as (table name, content) pairs, in the order the
files were closed.  The on-disk path of a file named `n` is
`output_dir/n.sql`.  The trailing `if let Some(mut file) = table_file.take()`
(src/main.rs:154-158) finalizes a file left open at end of input. -/
def split_sql_dump (lines : List Line) (preamble postamble : List Char) :
    List (Line × List Char) :=
  let st := splitLoop preamble postamble ⟨none, [], []⟩ lines
  match st.table_file with
  | some f => st.written ++ [(f.1, f.2 ++ st.table_lines.flatten ++ postamble)]
  | none => st.written

/-- One file-system write: `File::create` truncates, so a write to an existing
name replaces its content, otherwise the file is appended to the directory. -/
def fsWrite (dir : List (Line × List Char)) (name : Line) (content : List Char) :
    List (Line × List Char) :=
  if dir.any (fun e => e.1 == name) then
    dir.map (fun e => if e.1 == name then (name, content) else e)
  else dir ++ [(name, content)]

/-- The directory contents after performing the splitter's writes in order. -/
def writeAll (files : List (Line × List Char)) : List (Line × List Char) :=
  files.foldl (fun dir f => fsWrite dir f.1 f.2) []

/-! ## Structured dumps (used to state the splitter's correctness) -/

/-- One table segment: its start-marker line, its interior lines, and its
end-marker line. -/
structure Seg where
  start : Line
  body : List Line
  stop : Line
deriving Repr, DecidableEq

/-- The lines of a table segment, start and end marker inclusive. -/
def segLines (s : Seg) : List Line := s.start :: s.body ++ [s.stop]

/-- The characters a segment contributes to an output file: each of its lines
with a trailing newline. -/
def segChars (s : Seg) : List Char := (segLines s).flatMap (fun l => l ++ [nl])

/-- Well-formedness of a segment: it opens with a table-start marker, closes
with a table-end marker, and no interior line is a marker line. -/
def segWF (s : Seg) : Prop :=
  isDrop s.start = true ∧ isUnlock s.stop = true ∧
    ∀ l ∈ s.body, isDrop l = false ∧ isUnlock l = false

/-- The lines of a dump assembled from a preamble region, a list of table
segments, and a postamble region. -/
def dumpLines (preL : List Line) (segs : List Seg) (postL : List Line) : List Line :=
  preL ++ segs.flatMap segLines ++ postL

/-- Well-formedness of a structured dump: no table-start marker before the
first segment, every segment well-formed, and no marker line after the last
segment. -/
def dumpWF (preL : List Line) (segs : List Seg) (postL : List Line) : Prop :=
  (∀ l ∈ preL, isDrop l = false) ∧ (∀ s ∈ segs, segWF s) ∧
    ∀ l ∈ postL, isDrop l = false ∧ isUnlock l = false

/-! ## The spec's example dump -/

/-- The spec's example dump, line by line. -/
def exLines : List Line :=
  [("PRE1").toList, ("DROP TABLE `t1`;").toList, ("INS1").toList,
   ("UNLOCK TABLES;").toList, ("DROP TABLE `t2`;").toList, ("INS2").toList,
   ("UNLOCK TABLES;").toList, ("POST1").toList]

/-- The example dump's preamble region. -/
def exPreL : List Line := [("PRE1").toList]

/-- The example dump's two table segments. -/
def exSegs : List Seg :=
  [⟨("DROP TABLE `t1`;").toList, [("INS1").toList], ("UNLOCK TABLES;").toList⟩,
   ⟨("DROP TABLE `t2`;").toList, [("INS2").toList], ("UNLOCK TABLES;").toList⟩]

/-- The example dump's postamble region. -/
def exPostL : List Line := [("POST1").toList]

instance (s : Seg) : Decidable (segWF s) := by unfold segWF; exact inferInstance

instance (preL : List Line) (segs : List Seg) (postL : List Line) :
    Decidable (dumpWF preL segs postL) := by unfold dumpWF; exact inferInstance

/-! ## Import orchestrator (`import_sql_files`, src/main.rs:164-253) -/

/-- Rust `slice::chunks` helper with chunk size `k + 1`: consecutive chunks,
all of size `k + 1` except possibly the last. -/
def chunksGo (k : Nat) : List α → List (List α)
  | [] => []
  | x :: xs => (x :: xs.take k) :: chunksGo k (xs.drop k)
termination_by l => l.length
decreasing_by simp; omega

/-- Rust `paths.chunks(n)` (src/main.rs:192): panics — modelled as `none` —
when the chunk size is zero, otherwise the consecutive chunks of size `n`. -/
def rustChunks (n : Nat) (l : List α) : Option (List (List α)) :=
  if n = 0 then none else some (chunksGo (n - 1) l)

/-- The outcome of one external `mysql` invocation, as the thread body sees
it: `Command::output()` returns an error on launch failure, otherwise the
process ran and reported an exit code. -/
inductive JobOutcome where
  | launchErr : String → JobOutcome
  | exited : Int → JobOutcome
deriving Repr, DecidableEq

/-- The log lines the thread body emits for one job (src/main.rs:229-231):
only an `Err` from `Command::output()` is reported; the exit status of a
process that did run is never inspected. -/
def jobLog : JobOutcome → List String
  | .launchErr e => [("Failed to execute mysql import command: ") ++ e]
  | .exited _ => []

/-- The operations the orchestrator's main thread performs, in order:
spawning a job's thread, joining it, and removing the input directory. -/
inductive IEvent (α : Type) where
  | spawn : α → IEvent α
  | join : α → IEvent α
  | removeDir : IEvent α
deriving Repr, DecidableEq

/-- The spawn/join operations of one batch: every job of the batch is spawned
(src/main.rs:193-237), then every handle is joined (src/main.rs:239-241). -/
def batchTrace (c : List α) : List (IEvent α) :=
  c.map IEvent.spawn ++ c.map IEvent.join

/-- The spawn/join operations of the whole batch loop. -/
def jobsTrace (cs : List (List α)) : List (IEvent α) :=
  cs.flatMap batchTrace

/-- Number of spawn operations in a trace. -/
def spawnCount (t : List (IEvent α)) : Nat :=
  t.countP (fun e => match e with | .spawn _ => true | _ => false)

/-- Number of join operations in a trace. -/
def joinCount (t : List (IEvent α)) : Nat :=
  t.countP (fun e => match e with | .join _ => true | _ => false)

/-- The jobs a trace spawns, in spawn order. -/
def spawnsOf (t : List (IEvent α)) : List α :=
  t.filterMap (fun e => match e with | .spawn a => some a | _ => none)

/-- The observable result of one run of `import_sql_files`. -/
structure RunResult (α : Type) where
  trace : List (IEvent α)
  logs : List String
  progress : Nat
  result : Except String Unit
deriving Repr

/-- Rust `import_sql_files` (src/main.rs:164-253), over the directory's file
list `paths`, the concurrency bound `parallel`, the outcome of each job's
external invocation, the `delete` flag and the result of
`fs::remove_dir_all`.  `none` models the panic of `paths.chunks(0)`.  The
trace records the main thread's spawn/join/remove operations in program
order; the logs are collected in batch order (their interleaving inside one
batch is not observable in this model, and the stated properties depend only
on membership); the progress counter is incremented exactly once per job. -/
def import_sql_files (paths : List α) (parallel : Nat) (outcome : α → JobOutcome)
    (delete : Bool) (removeResult : Except String Unit) : Option (RunResult α) :=
  match rustChunks parallel paths with
  | none => none
  | some cs =>
    let trace := jobsTrace cs
    let logs := cs.flatMap (fun c => c.flatMap (fun p => jobLog (outcome p)))
    if delete then
      some ⟨trace ++ [IEvent.removeDir], logs, paths.length, removeResult⟩
    else
      some ⟨trace, logs, paths.length, Except.ok ()⟩

/-! ## External client invocation (src/main.rs:196-216) -/

/-- Rust argument construction for one job (src/main.rs:196-216): each
connection parameter is pushed as a named flag when present, then the
database name, then the shell redirection of the table file. -/
def importArgs (host : Option String) (port : Option Nat) (user password : Option String)
    (db path : String) : List String :=
  let args : List String := []
  let args := match host with | some h => args ++ [("--host=") ++ h] | none => args
  let args := match port with | some p => args ++ [("--port=") ++ toString p] | none => args
  let args := match user with | some u => args ++ [("--user=") ++ u] | none => args
  let args := match password with | some w => args ++ [("--password=") ++ w] | none => args
  args ++ [db, ("<"), path]

/-- Modelled from the spec's words for comparison: an optional named flag,
present exactly when its parameter is supplied. -/
def optFlag (flagText : String) (v : Option String) : List String :=
  match v with
  | some s => [flagText ++ s]
  | none => []

/-- Modelled from the spec's words for comparison: the host, port, user and
password flags in order, each included only if supplied, followed by the
database name positional argument, followed by the redirection of the table
file into the client's input stream. -/
def specInvocation (host : Option String) (port : Option Nat) (user password : Option String)
    (db path : String) : List String :=
  optFlag ("--host=") host ++ optFlag ("--port=") (port.map toString) ++
    optFlag ("--user=") user ++ optFlag ("--password=") password ++ [db] ++ [("<"), path]

/-! ## Marker lemmas -/

theorem isDrop_not_isUnlock {l : Line} (h : isDrop l = true) : isUnlock l = false := by
  cases l with
  | nil => simp [isDrop, dropMarker, List.isPrefixOf] at h
  | cons c cs =>
    simp only [isDrop, dropMarker, List.isPrefixOf, Bool.and_eq_true, beq_iff_eq] at h
    obtain ⟨h1, -⟩ := h
    subst h1
    have hud : (('U' == 'D') : Bool) = false := by decide
    simp [isUnlock, unlockMarker, List.isPrefixOf, hud]

theorem isUnlock_not_isDrop {l : Line} (h : isUnlock l = true) : isDrop l = false := by
  cases l with
  | nil => simp [isUnlock, unlockMarker, List.isPrefixOf] at h
  | cons c cs =>
    simp only [isUnlock, unlockMarker, List.isPrefixOf, Bool.and_eq_true, beq_iff_eq] at h
    obtain ⟨h1, -⟩ := h
    subst h1
    have hdu : (('D' == 'U') : Bool) = false := by decide
    simp [isDrop, dropMarker, List.isPrefixOf, hdu]

/-! ## splitChar lemmas -/

theorem splitChar_no_delim {c : Char} : ∀ {a : List Char}, c ∉ a → splitChar c a = [a]
  | [], _ => rfl
  | x :: xs, h => by
    have hx : ¬x = c := fun e => h (by simp [e])
    have hxs : c ∉ xs := fun m => h (List.mem_cons_of_mem _ m)
    simp only [splitChar, if_neg hx, splitChar_no_delim hxs]

theorem splitChar_cons (c x : Char) (xs : List Char) :
    splitChar c (x :: xs)
      = if x = c then [] :: splitChar c xs
        else match splitChar c xs with | [] => [[x]] | y :: ys => (x :: y) :: ys := rfl

theorem splitChar_first {c : Char} (t : List Char) :
    ∀ {a : List Char}, c ∉ a → splitChar c (a ++ c :: t) = a :: splitChar c t
  | [], _ => by simp [splitChar]
  | x :: xs, h => by
    have hx : ¬x = c := fun e => h (by simp [e])
    have hxs : c ∉ xs := fun m => h (List.mem_cons_of_mem _ m)
    rw [List.cons_append, splitChar_cons, if_neg hx, splitChar_first t hxs]

/-! ## Scanner lemmas -/

/-- First-argument-biased choice on optional indices, matching how a later
`last_unlock_line = Some(index)` assignment overrides an earlier one. -/
def orD (o d : Option Nat) : Option Nat :=
  match o with
  | some j => some j
  | none => d

theorem orD_none (o : Option Nat) : orD o none = o := by cases o <;> rfl

theorem orD_assoc (a b c : Option Nat) : orD (orD a b) c = orD a (orD b c) := by
  cases a <;> cases b <;> rfl

/-- Global index of the last line of `ls` that starts with the table-end
marker, where `ls` is positioned starting at global index `idx`; `none` when
no line of `ls` is an end-marker line. -/
def lastEndMarkerFrom (idx : Nat) : List Line → Option Nat
  | [] => none
  | l :: ls => orD (lastEndMarkerFrom (idx + 1) ls) (if isUnlock l then some idx else none)

theorem lastEndMarkerFrom_none {xs : List Line} (h : ∀ l ∈ xs, isUnlock l = false) :
    ∀ idx, lastEndMarkerFrom idx xs = none := by
  induction xs with
  | nil => intro idx; rfl
  | cons l ls ih =>
    intro idx
    have hl : isUnlock l = false := h l (by simp)
    have hls : ∀ l ∈ ls, isUnlock l = false := fun x hx => h x (by simp [hx])
    simp [lastEndMarkerFrom, ih hls, hl, orD]

theorem lastEndMarkerFrom_cons (idx : Nat) (l : Line) (ls : List Line) :
    lastEndMarkerFrom idx (l :: ls)
      = orD (lastEndMarkerFrom (idx + 1) ls) (if isUnlock l then some idx else none) := rfl

theorem lastEndMarkerFrom_append (xs ys : List Line) : ∀ idx,
    lastEndMarkerFrom idx (xs ++ ys)
      = orD (lastEndMarkerFrom (idx + xs.length) ys) (lastEndMarkerFrom idx xs) := by
  induction xs with
  | nil => intro idx; simp [lastEndMarkerFrom, orD_none]
  | cons x xs ih =>
    intro idx
    rw [List.cons_append, lastEndMarkerFrom_cons, ih (idx + 1), orD_assoc,
      lastEndMarkerFrom_cons, List.length_cons]
    have harith : idx + 1 + xs.length = idx + (xs.length + 1) := by omega
    rw [harith]

theorem findIdx_of_all_false {xs : List Line} (p : Line → Bool)
    (h : ∀ l ∈ xs, p l = false) : xs.findIdx p = xs.length := by
  induction xs with
  | nil => rfl
  | cons l ls ih =>
    have hl : p l = false := h l (by simp)
    have hls : ∀ l ∈ ls, p l = false := fun x hx => h x (by simp [hx])
    simp [List.findIdx_cons, hl, ih hls]

theorem scanLoop_postamble (xs : List Line) : ∀ idx st,
    (scanLoop idx st xs).postamble = st.postamble ++ xs := by
  induction xs with
  | nil => intro idx st; simp [scanLoop]
  | cons l ls ih =>
    intro idx st
    rw [scanLoop, ih]
    have hstep : (scanStep st idx l).postamble = st.postamble ++ [l] := by
      simp only [scanStep]
      repeat' split
      all_goals rfl
    rw [hstep, List.append_assoc]
    rfl

theorem scanLoop_post_phase (xs : List Line) : ∀ idx p q u,
    scanLoop idx ⟨p, q, false, u⟩ xs
      = ⟨p, q ++ xs, false, orD (lastEndMarkerFrom idx xs) u⟩ := by
  induction xs with
  | nil => intro idx p q u; simp [scanLoop, lastEndMarkerFrom, orD]
  | cons l ls ih =>
    intro idx p q u
    rw [scanLoop]
    by_cases hu : isUnlock l
    · have hstep : scanStep ⟨p, q, false, u⟩ idx l = ⟨p, q ++ [l], false, some idx⟩ := by
        simp [scanStep, hu]
      rw [hstep, ih]
      simp only [lastEndMarkerFrom, hu, if_pos]
      cases lastEndMarkerFrom (idx + 1) ls <;> simp [orD, List.append_assoc]
    · have hstep : scanStep ⟨p, q, false, u⟩ idx l = ⟨p, q ++ [l], false, u⟩ := by
        simp [scanStep, hu]
      rw [hstep, ih]
      simp only [lastEndMarkerFrom, hu, if_neg]
      cases lastEndMarkerFrom (idx + 1) ls <;> simp [orD, List.append_assoc]

theorem scanLoop_preamble_takeWhile (xs : List Line) : ∀ idx p q u,
    (scanLoop idx ⟨p, q, true, u⟩ xs).preamble
      = p ++ xs.takeWhile (fun l => !isDrop l) := by
  induction xs with
  | nil => intro idx p q u; simp [scanLoop]
  | cons l ls ih =>
    intro idx p q u
    rw [scanLoop]
    by_cases hd : isDrop l
    · have hstep : scanStep ⟨p, q, true, u⟩ idx l = ⟨p, q ++ [l], false, u⟩ := by
        simp [scanStep, hd, isDrop_not_isUnlock hd]
      rw [hstep, scanLoop_post_phase]
      simp [List.takeWhile_cons, hd]
    · have hstep : scanStep ⟨p, q, true, u⟩ idx l = ⟨p ++ [l], q ++ [l], true, u⟩ := by
        simp [scanStep, hd]
      rw [hstep, ih]
      simp [List.takeWhile_cons, hd, List.append_assoc]

theorem scanLoop_last_unlock (xs : List Line) : ∀ idx p q,
    (scanLoop idx ⟨p, q, true, none⟩ xs).last_unlock_line
      = lastEndMarkerFrom (idx + xs.findIdx (fun l => isDrop l))
          (xs.drop (xs.findIdx (fun l => isDrop l))) := by
  induction xs with
  | nil => intro idx p q; simp [scanLoop, lastEndMarkerFrom]
  | cons l ls ih =>
    intro idx p q
    rw [scanLoop]
    by_cases hd : isDrop l
    · have hstep : scanStep ⟨p, q, true, none⟩ idx l = ⟨p, q ++ [l], false, none⟩ := by
        simp [scanStep, hd, isDrop_not_isUnlock hd]
      rw [hstep, scanLoop_post_phase]
      simp [List.findIdx_cons, hd, lastEndMarkerFrom, isDrop_not_isUnlock hd, orD_none]
    · have hstep : scanStep ⟨p, q, true, none⟩ idx l = ⟨p ++ [l], q ++ [l], true, none⟩ := by
        simp [scanStep, hd]
      rw [hstep, ih]
      have harith : idx + 1 + ls.findIdx (fun l => isDrop l)
          = idx + (ls.findIdx (fun l => isDrop l) + 1) := by omega
      simp [List.findIdx_cons, hd, harith]

/-- Spec-side description of the postamble: the lines of the dump strictly
after the last table-end marker line at or after the first table-start line
(i.e. observed after preamble mode has ended); empty when no such marker
exists. -/
def specPostamble (ls : List Line) : List Line :=
  match lastEndMarkerFrom (ls.findIdx (fun l => isDrop l))
      (ls.drop (ls.findIdx (fun l => isDrop l))) with
  | some j => ls.drop (j + 1)
  | none => []

/-- C3: the scanner's postamble is the newline-join of the lines strictly
after the last table-end marker line observed after preamble mode has ended,
and it is empty when no table-end marker exists anywhere in the dump. -/
theorem c3_theorem (ls : List Line) :
    (scan_sql_dump ls).2 = joinLines (specPostamble ls) ∧
    ((∀ l ∈ ls, isUnlock l = false) → (scan_sql_dump ls).2 = []) := by
  have hmain : (scan_sql_dump ls).2 = joinLines (specPostamble ls) := by
    simp only [scan_sql_dump, specPostamble, scanLoop_last_unlock ls 0 [] [],
      scanLoop_postamble ls 0, Nat.zero_add, List.nil_append]
  refine ⟨hmain, fun h => ?_⟩
  rw [hmain]
  have hnone : lastEndMarkerFrom (ls.findIdx (fun l => isDrop l))
      (ls.drop (ls.findIdx (fun l => isDrop l))) = none :=
    lastEndMarkerFrom_none
      (fun l hl => h l (List.drop_subset _ ls hl)) _
  simp [specPostamble, hnone, joinLines, List.intercalate]

/-- C3 witness: a dump with no table-end marker anywhere has an empty
postamble. -/
theorem c3_witness :
    (∀ l ∈ [("A").toList], isUnlock l = false) ∧
      (scan_sql_dump [("A").toList]).2 = [] :=
  ⟨by decide, (c3_theorem [("A").toList]).2 (by decide)⟩

/-- C4: the scanner's preamble is the newline-join of the lines strictly
before the first table-start marker line; it is empty when the very first
line is a table-start marker, and when no table-start marker exists the
preamble is the whole file and the postamble is empty. -/
theorem c4_theorem (ls : List Line) :
    (scan_sql_dump ls).1 = joinLines (ls.takeWhile (fun l => !isDrop l)) ∧
    (∀ hd tl, ls = hd :: tl → isDrop hd = true → (scan_sql_dump ls).1 = []) ∧
    ((∀ l ∈ ls, isDrop l = false) →
      (scan_sql_dump ls).1 = joinLines ls ∧ (scan_sql_dump ls).2 = []) := by
  have hmain : (scan_sql_dump ls).1 = joinLines (ls.takeWhile (fun l => !isDrop l)) := by
    simp only [scan_sql_dump, scanLoop_preamble_takeWhile ls 0 [] [], List.nil_append]
  refine ⟨hmain, fun hd tl hls hdrop => ?_, fun h => ⟨?_, ?_⟩⟩
  · subst hls
    rw [hmain]
    simp [List.takeWhile_cons, hdrop, joinLines, List.intercalate]
  · rw [hmain]
    have : ls.takeWhile (fun l => !isDrop l) = ls :=
      List.takeWhile_eq_self_iff.mpr (fun l hl => by simp [h l hl])
    rw [this]
  · have hq : ls.findIdx (fun l => isDrop l) = ls.length := findIdx_of_all_false _ h
    simp only [scan_sql_dump, scanLoop_last_unlock ls 0 [] [], Nat.zero_add, hq,
      List.drop_length, lastEndMarkerFrom]
    simp [joinLines, List.intercalate]

/-- C4 witness: a dump with no table-start marker has the whole file as
preamble and an empty postamble. -/
theorem c4_witness :
    (∀ l ∈ [("A").toList], isDrop l = false) ∧
      ((scan_sql_dump [("A").toList]).1 = joinLines [("A").toList] ∧
        (scan_sql_dump [("A").toList]).2 = []) :=
  ⟨by decide, (c4_theorem [("A").toList]).2.2 (by decide)⟩

/-! ## Splitter lemmas -/

theorem splitLoop_append (pre post : List Char) (xs ys : List Line) : ∀ st,
    splitLoop pre post st (xs ++ ys) = splitLoop pre post (splitLoop pre post st xs) ys := by
  induction xs with
  | nil => intro st; rfl
  | cons l ls ih => intro st; rw [List.cons_append, splitLoop, splitLoop, ih]

theorem splitLoop_no_drop (pre post : List Char) {xs : List Line}
    (h : ∀ l ∈ xs, isDrop l = false) : ∀ buf W,
    ∃ buf2, splitLoop pre post ⟨none, buf, W⟩ xs = ⟨none, buf2, W⟩ := by
  induction xs with
  | nil => intro buf W; exact ⟨buf, rfl⟩
  | cons l ls ih =>
    intro buf W
    have hl : isDrop l = false := h l (by simp)
    have hls : ∀ l ∈ ls, isDrop l = false := fun x hx => h x (by simp [hx])
    by_cases hu : isUnlock l
    · have hstep : splitStep pre post ⟨none, buf, W⟩ l = ⟨none, [], W⟩ := by
        simp [splitStep, hl, hu]
      rw [splitLoop, hstep]
      exact ih hls [] W
    · have hstep : splitStep pre post ⟨none, buf, W⟩ l = ⟨none, buf ++ [l ++ [nl]], W⟩ := by
        simp [splitStep, hl, hu]
      rw [splitLoop, hstep]
      exact ih hls _ W

theorem splitLoop_body (pre post : List Char) {xs : List Line}
    (h : ∀ l ∈ xs, isDrop l = false ∧ isUnlock l = false) : ∀ tf buf W,
    splitLoop pre post ⟨tf, buf, W⟩ xs
      = ⟨tf, buf ++ xs.map (fun l => l ++ [nl]), W⟩ := by
  induction xs with
  | nil => intro tf buf W; simp [splitLoop]
  | cons l ls ih =>
    intro tf buf W
    have hl := h l (by simp)
    have hls : ∀ l ∈ ls, isDrop l = false ∧ isUnlock l = false :=
      fun x hx => h x (by simp [hx])
    have hstep : splitStep pre post ⟨tf, buf, W⟩ l = ⟨tf, buf ++ [l ++ [nl]], W⟩ := by
      simp [splitStep, hl.1, hl.2]
    rw [splitLoop, hstep, ih hls]
    simp [List.append_assoc]

theorem splitLoop_seg (pre post : List Char) {s : Seg} (hs : segWF s) : ∀ buf W,
    splitLoop pre post ⟨none, buf, W⟩ (segLines s)
      = ⟨none, [], W ++ [(tableName s.start, pre ++ [nl] ++ segChars s ++ post)]⟩ := by
  obtain ⟨hd, hu, hb⟩ := hs
  intro buf W
  have hstep1 : splitStep pre post ⟨none, buf, W⟩ s.start
      = ⟨some (tableName s.start, pre ++ [nl] ++ (s.start ++ [nl])), [], W⟩ := by
    simp [splitStep, hd, isDrop_not_isUnlock hd]
  have hbody := splitLoop_body pre post hb
      (some (tableName s.start, pre ++ [nl] ++ (s.start ++ [nl]))) [] W
  have hstep2 : splitStep pre post
      ⟨some (tableName s.start, pre ++ [nl] ++ (s.start ++ [nl])),
        [] ++ s.body.map (fun l => l ++ [nl]), W⟩ s.stop
      = ⟨none, [],
          W ++ [(tableName s.start,
            (pre ++ [nl] ++ (s.start ++ [nl]))
              ++ (s.body.map (fun l => l ++ [nl]) ++ [s.stop ++ [nl]]).flatten ++ post)]⟩ := by
    simp [splitStep, hu, isUnlock_not_isDrop hu]
  have hcons : ∀ (st : SplitState) (l : Line) (ls : List Line),
      splitLoop pre post st (l :: ls) = splitLoop pre post (splitStep pre post st l) ls :=
    fun _ _ _ => rfl
  rw [show segLines s = s.start :: (s.body ++ [s.stop]) from rfl, hcons, hstep1,
    splitLoop_append, hbody, hcons, hstep2,
    show ∀ st : SplitState, splitLoop pre post st [] = st from fun _ => rfl]
  have hcontent : (pre ++ [nl] ++ (s.start ++ [nl]))
      ++ (s.body.map (fun l => l ++ [nl]) ++ [s.stop ++ [nl]]).flatten ++ post
      = pre ++ [nl] ++ segChars s ++ post := by
    simp [segChars, segLines, List.flatMap_cons, List.flatMap_append, List.append_assoc,
      List.flatMap]
  rw [hcontent]

theorem splitLoop_segs (pre post : List Char) {segs : List Seg}
    (h : ∀ s ∈ segs, segWF s) : ∀ buf W,
    ∃ buf2, splitLoop pre post ⟨none, buf, W⟩ (segs.flatMap segLines)
      = ⟨none, buf2,
          W ++ segs.map (fun s => (tableName s.start, pre ++ [nl] ++ segChars s ++ post))⟩ := by
  induction segs with
  | nil => intro buf W; exact ⟨buf, by simp [splitLoop]⟩
  | cons s rest ih =>
    intro buf W
    have hs : segWF s := h s (by simp)
    have hrest : ∀ s ∈ rest, segWF s := fun x hx => h x (by simp [hx])
    obtain ⟨buf2, hrec⟩ := ih hrest []
        (W ++ [(tableName s.start, pre ++ [nl] ++ segChars s ++ post)])
    refine ⟨buf2, ?_⟩
    rw [List.flatMap_cons, splitLoop_append, splitLoop_seg pre post hs buf W, hrec]
    simp

/-- The splitter's output on a well-formed structured dump, for any preamble
and postamble strings it is given: one file per segment, in order, named by
the extracted identifier, with content
`preamble ++ "\n" ++ segment lines ++ postamble`. -/
theorem split_structured (preL : List Line) (segs : List Seg) (postL : List Line)
    (pre post : List Char) (hwf : dumpWF preL segs postL) :
    split_sql_dump (dumpLines preL segs postL) pre post
      = segs.map (fun s => (tableName s.start, pre ++ [nl] ++ segChars s ++ post)) := by
  obtain ⟨hpre, hsegs, hpost⟩ := hwf
  obtain ⟨b1, h1⟩ := splitLoop_no_drop pre post hpre [] []
  obtain ⟨b2, h2⟩ := splitLoop_segs pre post hsegs b1 []
  obtain ⟨b3, h3⟩ := splitLoop_no_drop pre post (fun l hl => (hpost l hl).1) b2
      ([] ++ segs.map (fun s => (tableName s.start, pre ++ [nl] ++ segChars s ++ post)))
  have hloop : splitLoop pre post ⟨none, [], []⟩ (dumpLines preL segs postL)
      = ⟨none, b3,
          [] ++ segs.map (fun s => (tableName s.start, pre ++ [nl] ++ segChars s ++ post))⟩ := by
    rw [dumpLines, splitLoop_append, splitLoop_append, h1, h2, h3]
  rw [split_sql_dump, hloop]
  simp

/-! ## File-system lemmas -/

theorem fsWrite_not_mem {dir : List (Line × List Char)} {name : Line}
    (h : name ∉ dir.map Prod.fst) (content : List Char) :
    fsWrite dir name content = dir ++ [(name, content)] := by
  rw [fsWrite, if_neg]
  simp only [List.any_eq_true, beq_iff_eq, not_exists, not_and]
  intro e he heq
  exact h (List.mem_map.mpr ⟨e, he, heq⟩)

theorem writeAll_go (l : List (Line × List Char)) : ∀ acc,
    ((acc ++ l).map Prod.fst).Nodup →
      l.foldl (fun dir f => fsWrite dir f.1 f.2) acc = acc ++ l := by
  induction l with
  | nil => intro acc _; simp
  | cons f t ih =>
    intro acc h
    have hmem : f.1 ∉ acc.map Prod.fst := by
      rw [List.map_append] at h
      intro hmem
      exact (List.nodup_append.mp h).2.2 hmem (by simp)
    rw [List.foldl_cons, fsWrite_not_mem hmem, ih]
    · simp
    · rw [List.append_assoc]
      simpa using h

/-- With pairwise-distinct file names no write overwrites an earlier one, so
the resulting directory is exactly the written list. -/
theorem writeAll_nodup {l : List (Line × List Char)}
    (h : (l.map Prod.fst).Nodup) : writeAll l = l := by
  have := writeAll_go l [] (by simpa using h)
  simpa [writeAll] using this

theorem flatten_map_flatMap (segs : List Seg) (g : Line → List Char) :
    (segs.map (fun s => (segLines s).flatMap g)).flatten
      = (segs.flatMap segLines).flatMap g := by
  induction segs with
  | nil => rfl
  | cons s rest ih => simp [List.flatMap_append, ih]

/-! ## C1: content of each output file -/

/-- C1 counterexample: for the spec's example dump the file `t1.sql` does not
equal the claimed byte string (which has a blank line between the preamble
and the table segment): the splitter writes a single newline after the
preamble, not a blank-line separator. -/
theorem c1_counterexample :
    ¬ (List.lookup (("t1").toList)
        (writeAll (split_sql_dump exLines (scan_sql_dump exLines).1 (scan_sql_dump exLines).2))
      = some (("PRE1\n\nDROP TABLE `t1`;\nINS1\nUNLOCK TABLES;\nPOST1").toList)) := by
  decide

/-- C1 (amended): each output file is the preamble, a single newline
character, the table-segment lines (each newline-terminated), and the
postamble; in particular for the spec's example dump, `t1.sql` is the byte
string `PRE1\nDROP TABLE \x60t1\x60;\nINS1\nUNLOCK TABLES;\nPOST1` and
`t2.sql` is the analogous string with `t2` and `INS2`. -/
theorem c1_theorem :
    (∀ (preL : List Line) (segs : List Seg) (postL : List Line) (pre post : List Char),
      dumpWF preL segs postL →
        split_sql_dump (dumpLines preL segs postL) pre post
          = segs.map (fun s => (tableName s.start, pre ++ [nl] ++ segChars s ++ post))) ∧
    writeAll (split_sql_dump exLines (scan_sql_dump exLines).1 (scan_sql_dump exLines).2)
      = [((("t1").toList), ("PRE1\nDROP TABLE `t1`;\nINS1\nUNLOCK TABLES;\nPOST1").toList),
         ((("t2").toList), ("PRE1\nDROP TABLE `t2`;\nINS2\nUNLOCK TABLES;\nPOST1").toList)] :=
  ⟨fun preL segs postL pre post hwf => split_structured preL segs postL pre post hwf,
   by decide⟩

/-- C1 witness: the general conjunct applied to the example dump's structure. -/
theorem c1_witness :
    dumpWF exPreL exSegs exPostL ∧
      split_sql_dump (dumpLines exPreL exSegs exPostL) [] []
        = exSegs.map (fun s => (tableName s.start, [] ++ [nl] ++ segChars s ++ [])) :=
  ⟨by decide, c1_theorem.1 exPreL exSegs exPostL [] [] (by decide)⟩

/-! ## C2: table-identifier extraction -/

/-- C2 counterexample: on a start line in which the backtick delimiter occurs
exactly once the extracted identifier is the text after the delimiter, not
the empty string the claim requires. -/
theorem c2_counterexample :
    ((("DROP TABLE `t1").toList).count backtick < 2) ∧
      tableName (("DROP TABLE `t1").toList) ≠ [] := by
  refine ⟨by decide, by decide⟩

/-- C2 (amended): the identifier extracted from a start line is the token
between the first pair of backtick delimiters when the delimiter occurs at
least twice, the whole text after the delimiter when it occurs exactly once,
and the empty string when it does not occur. -/
theorem c2_theorem (a b rest : List Char) (ha : backtick ∉ a) (hb : backtick ∉ b) :
    tableName (a ++ backtick :: (b ++ backtick :: rest)) = b ∧
    tableName (a ++ backtick :: b) = b ∧
    tableName a = [] := by
  refine ⟨?_, ?_, ?_⟩
  · rw [tableName, splitChar_first (b ++ backtick :: rest) ha, splitChar_first rest hb]
    rfl
  · rw [tableName, splitChar_first b ha, splitChar_no_delim hb]
    rfl
  · rw [tableName, splitChar_no_delim ha]
    rfl

/-- C2 witness: the amended characterization at the example start lines. -/
theorem c2_witness :
    backtick ∉ ("DROP TABLE ").toList ∧ backtick ∉ ("t1").toList ∧
      (tableName (("DROP TABLE ").toList ++ backtick :: (("t1").toList
          ++ backtick :: ((";").toList))) = ("t1").toList ∧
        tableName (("DROP TABLE ").toList ++ backtick :: ("t1").toList) = ("t1").toList ∧
        tableName (("DROP TABLE ").toList) = []) :=
  ⟨by decide, by decide,
    c2_theorem (("DROP TABLE ").toList) (("t1").toList) ((";").toList)
      (by decide) (by decide)⟩

/-! ## C5: split of an N-segment dump -/

/-- C5: splitting a dump of N properly-closed table segments with pairwise
distinct identifiers produces exactly N output files, each equal to the
scanner's preamble, a newline, the segment's lines and the scanner's
postamble; stripping that shared prefix and suffix from each file and
concatenating the remaining bodies in order reconstructs the dump's
table-segment content. -/
theorem c5_theorem (preL : List Line) (segs : List Seg) (postL : List Line)
    (hwf : dumpWF preL segs postL)
    (hnames : (segs.map (fun s => tableName s.start)).Nodup) :
    let d := dumpLines preL segs postL
    let pre := (scan_sql_dump d).1
    let post := (scan_sql_dump d).2
    let files := writeAll (split_sql_dump d pre post)
    files = segs.map (fun s => (tableName s.start, pre ++ [nl] ++ segChars s ++ post)) ∧
    files.length = segs.length ∧
    (files.map (fun f =>
        (f.2.drop (pre.length + 1)).take (f.2.length - (pre.length + 1) - post.length))).flatten
      = (segs.flatMap segLines).flatMap (fun l => l ++ [nl]) := by
  intro d pre post files
  have hsplit : split_sql_dump d pre post
      = segs.map (fun s => (tableName s.start, pre ++ [nl] ++ segChars s ++ post)) :=
    split_structured preL segs postL pre post hwf
  have hfiles : files
      = segs.map (fun s => (tableName s.start, pre ++ [nl] ++ segChars s ++ post)) := by
    show writeAll (split_sql_dump d pre post) = _
    rw [hsplit]
    apply writeAll_nodup
    simpa [Function.comp] using hnames
  refine ⟨hfiles, by rw [hfiles]; simp, ?_⟩
  rw [hfiles, List.map_map]
  have hstrip : ∀ s : Seg,
      (((fun f : Line × List Char =>
          (f.2.drop (pre.length + 1)).take (f.2.length - (pre.length + 1) - post.length)) ∘
        (fun s => (tableName s.start, pre ++ [nl] ++ segChars s ++ post))) s)
        = segChars s := by
    intro s
    show (((pre ++ [nl] ++ segChars s ++ post).drop (pre.length + 1)).take
        ((pre ++ [nl] ++ segChars s ++ post).length - (pre.length + 1) - post.length))
      = segChars s
    have harr : pre ++ [nl] ++ segChars s ++ post = (pre ++ [nl]) ++ (segChars s ++ post) := by
      simp [List.append_assoc]
    have hlen : (pre ++ [nl]).length = pre.length + 1 := by simp
    rw [harr]
    have hlen2 : ((pre ++ [nl]) ++ (segChars s ++ post)).length - (pre.length + 1) - post.length
        = (segChars s).length := by
      simp
      omega
    rw [hlen2, ← hlen, List.drop_left, List.take_left' rfl]
  rw [funext hstrip]
  exact flatten_map_flatMap segs (fun l => l ++ [nl])

/-- C5 witness: the theorem applied to the spec's example dump (two
segments). -/
theorem c5_witness :
    dumpWF exPreL exSegs exPostL ∧
      (exSegs.map (fun s => tableName s.start)).Nodup ∧
      (let d := dumpLines exPreL exSegs exPostL
       let pre := (scan_sql_dump d).1
       let post := (scan_sql_dump d).2
       let files := writeAll (split_sql_dump d pre post)
       files = exSegs.map (fun s => (tableName s.start, pre ++ [nl] ++ segChars s ++ post)) ∧
       files.length = exSegs.length ∧
       (files.map (fun f =>
           (f.2.drop (pre.length + 1)).take
             (f.2.length - (pre.length + 1) - post.length))).flatten
         = (exSegs.flatMap segLines).flatMap (fun l => l ++ [nl])) :=
  ⟨by decide, by decide, c5_theorem exPreL exSegs exPostL (by decide) (by decide)⟩

/-! ## Chunking lemmas -/

theorem chunksGo_flatten {α : Type} (k : Nat) (l : List α) : (chunksGo k l).flatten = l := by
  induction l using chunksGo.induct k with
  | case1 => simp [chunksGo]
  | case2 x xs ih => simp [chunksGo, ih]

theorem chunksGo_mem {α : Type} (k : Nat) (l : List α) :
    ∀ c ∈ chunksGo k l, c ≠ [] ∧ c.length ≤ k + 1 := by
  induction l using chunksGo.induct k with
  | case1 => simp [chunksGo]
  | case2 x xs ih =>
    intro c hc
    rw [chunksGo] at hc
    rcases List.mem_cons.mp hc with hc | hc
    · subst hc
      refine ⟨by simp, ?_⟩
      simp [List.length_take]
    · exact ih c hc

theorem chunksGo_dropLast {α : Type} (k : Nat) (l : List α) :
    ∀ c ∈ (chunksGo k l).dropLast, c.length = k + 1 := by
  induction l using chunksGo.induct k with
  | case1 => simp [chunksGo]
  | case2 x xs ih =>
    intro c hc
    rw [chunksGo] at hc
    by_cases hr : chunksGo k (xs.drop k) = []
    · rw [hr] at hc
      simp at hc
    · rw [List.dropLast_cons_of_ne_nil hr] at hc
      rcases List.mem_cons.mp hc with hc | hc
      · subst hc
        have hdrop : xs.drop k ≠ [] := by
          intro hd
          rw [hd] at hr
          exact hr (by simp [chunksGo])
        have hlen : k < xs.length := by
          by_contra hlt
          exact hdrop (List.drop_eq_nil_of_le (by omega))
        simp [List.length_take]
        omega
      · exact ih c hc

theorem chunksGo_zero {α : Type} (l : List α) : chunksGo 0 l = l.map (fun a => [a]) := by
  induction l using chunksGo.induct 0 with
  | case1 => simp [chunksGo]
  | case2 x xs ih =>
    rw [List.drop_zero] at ih
    simp [chunksGo, ih]

/-! ## Trace lemmas -/

theorem spawnCount_map_spawn {α : Type} (c : List α) :
    spawnCount (c.map IEvent.spawn) = c.length := by
  induction c with
  | nil => rfl
  | cons a t ih => simp [spawnCount, List.countP_cons] at ih ⊢

theorem spawnCount_map_join {α : Type} (c : List α) :
    spawnCount (c.map IEvent.join) = 0 := by
  induction c with
  | nil => rfl
  | cons a t ih => simp [spawnCount, List.countP_cons]

theorem joinCount_map_spawn {α : Type} (c : List α) :
    joinCount (c.map IEvent.spawn) = 0 := by
  induction c with
  | nil => rfl
  | cons a t ih => simp [joinCount, List.countP_cons]

theorem joinCount_map_join {α : Type} (c : List α) :
    joinCount (c.map IEvent.join) = c.length := by
  induction c with
  | nil => rfl
  | cons a t ih => simp [joinCount, List.countP_cons] at ih ⊢

theorem spawnCount_append {α : Type} (t1 t2 : List (IEvent α)) :
    spawnCount (t1 ++ t2) = spawnCount t1 + spawnCount t2 :=
  List.countP_append _ _ _

theorem joinCount_append {α : Type} (t1 t2 : List (IEvent α)) :
    joinCount (t1 ++ t2) = joinCount t1 + joinCount t2 :=
  List.countP_append _ _ _

theorem spawnCount_batch {α : Type} (c : List α) : spawnCount (batchTrace c) = c.length := by
  rw [batchTrace, spawnCount_append, spawnCount_map_spawn, spawnCount_map_join]
  omega

theorem joinCount_batch {α : Type} (c : List α) : joinCount (batchTrace c) = c.length := by
  rw [batchTrace, joinCount_append, joinCount_map_spawn, joinCount_map_join]
  simp

theorem counts_jobsTrace {α : Type} (cs : List (List α)) :
    spawnCount (jobsTrace cs) = joinCount (jobsTrace cs) := by
  induction cs with
  | nil => rfl
  | cons c cs ih =>
    rw [jobsTrace, List.flatMap_cons, spawnCount_append, joinCount_append,
      spawnCount_batch, joinCount_batch]
    rw [jobsTrace] at ih
    omega

theorem prefix_append_cases {β : Type} {p xs ys : List β} (h : p <+: xs ++ ys) :
    p <+: xs ∨ ∃ q, p = xs ++ q ∧ q <+: ys := by
  obtain ⟨t, ht⟩ := h
  rcases List.append_eq_append_iff.mp ht with ⟨a, ha1, ha2⟩ | ⟨c, hc1, hc2⟩
  · exact Or.inl ⟨a, ha1.symm⟩
  · exact Or.inr ⟨c, hc1, ⟨t, by rw [hc1, List.append_assoc] at ht; exact
      (List.append_cancel_left ht)⟩⟩

theorem jobsTrace_prefix_bound {α : Type} {k : Nat} {cs : List (List α)}
    (hc : ∀ c ∈ cs, c.length ≤ k) :
    ∀ p, p <+: jobsTrace cs → spawnCount p ≤ joinCount p + k := by
  induction cs with
  | nil =>
    intro p hp
    have hp0 : p = [] := List.prefix_nil.mp hp
    subst hp0
    simp [spawnCount, joinCount]
  | cons c cs ih =>
    intro p hp
    rw [jobsTrace, List.flatMap_cons] at hp
    rcases prefix_append_cases hp with hpre | ⟨q, rfl, hq⟩
    · have h1 : spawnCount p ≤ spawnCount (batchTrace c) := (hpre.sublist).countP_le _
      rw [spawnCount_batch] at h1
      have h2 := hc c (by simp)
      omega
    · have hqbound := ih (fun x hx => hc x (by simp [hx])) q hq
      rw [spawnCount_append, joinCount_append, spawnCount_batch, joinCount_batch]
      omega

theorem jobsTrace_singletons {α : Type} (paths : List α) :
    jobsTrace (paths.map (fun p => [p]))
      = paths.flatMap (fun p => [IEvent.spawn p, IEvent.join p]) := by
  induction paths with
  | nil => rfl
  | cons a t ih => simp [jobsTrace, batchTrace] at ih ⊢; exact ih

theorem spawnsOf_append {α : Type} (t1 t2 : List (IEvent α)) :
    spawnsOf (t1 ++ t2) = spawnsOf t1 ++ spawnsOf t2 :=
  List.filterMap_append ..

theorem spawnsOf_map_spawn {α : Type} (c : List α) : spawnsOf (c.map IEvent.spawn) = c := by
  induction c with
  | nil => rfl
  | cons a t ih => simp [spawnsOf, List.filterMap_cons] at ih ⊢; exact ih

theorem spawnsOf_map_join {α : Type} (c : List α) : spawnsOf (c.map IEvent.join) = [] := by
  induction c with
  | nil => rfl
  | cons a t ih => simp [spawnsOf, List.filterMap_cons]

theorem spawnsOf_jobsTrace {α : Type} (cs : List (List α)) :
    spawnsOf (jobsTrace cs) = cs.flatten := by
  induction cs with
  | nil => rfl
  | cons c cs ih =>
    rw [jobsTrace, List.flatMap_cons, spawnsOf_append, batchTrace, spawnsOf_append,
      spawnsOf_map_spawn, spawnsOf_map_join]
    rw [jobsTrace] at ih
    simp [ih]

theorem flatMap_flatten {α β : Type} (cs : List (List α)) (f : α → List β) :
    cs.flatMap (fun c => c.flatMap f) = cs.flatten.flatMap f := by
  induction cs with
  | nil => rfl
  | cons c cs ih => simp [List.flatMap_append, ih]

/-! ## C6: batch-barrier concurrency -/

/-- C6: with concurrency bound `k ≥ 1` the file list is partitioned into
consecutive batches of size `k` (the final batch possibly smaller), the
main-thread trace is the concatenation of the batch traces (all of a batch's
joins precede the next batch's spawns), in every prefix of the trace at most
`k` spawned jobs are not yet joined, at every batch boundary every spawned
job has been joined, and with `k = 1` the trace alternates spawn/join file by
file. -/
theorem c6_theorem {α : Type} (paths : List α) (outcome : α → JobOutcome) (k : Nat)
    (hk : 1 ≤ k) :
    ∃ cs r, rustChunks k paths = some cs ∧
      import_sql_files paths k outcome false (Except.ok ()) = some r ∧
      r.trace = jobsTrace cs ∧
      cs.flatten = paths ∧
      (∀ c ∈ cs, c ≠ [] ∧ c.length ≤ k) ∧
      (∀ c ∈ cs.dropLast, c.length = k) ∧
      (∀ p, p <+: jobsTrace cs → spawnCount p ≤ joinCount p + k) ∧
      (∀ n, spawnCount (jobsTrace (cs.take n)) = joinCount (jobsTrace (cs.take n))) ∧
      (k = 1 → jobsTrace cs
        = paths.flatMap (fun q => [IEvent.spawn q, IEvent.join q])) := by
  have hk0 : ¬k = 0 := by omega
  have hk1 : k - 1 + 1 = k := by omega
  refine ⟨chunksGo (k - 1) paths,
    ⟨jobsTrace (chunksGo (k - 1) paths),
      (chunksGo (k - 1) paths).flatMap (fun c => c.flatMap (fun p => jobLog (outcome p))),
      paths.length, Except.ok ()⟩, ?_, ?_, rfl, ?_, ?_, ?_, ?_, ?_, ?_⟩
  · simp [rustChunks, hk0]
  · simp [import_sql_files, rustChunks, hk0]
  · exact chunksGo_flatten (k - 1) paths
  · intro c hc
    have := chunksGo_mem (k - 1) paths c hc
    rw [hk1] at this
    exact this
  · intro c hc
    have := chunksGo_dropLast (k - 1) paths c hc
    rw [hk1] at this
    exact this
  · exact jobsTrace_prefix_bound (fun c hc => by
      have := chunksGo_mem (k - 1) paths c hc
      rw [hk1] at this
      exact this.2)
  · intro n
    exact counts_jobsTrace ((chunksGo (k - 1) paths).take n)
  · intro hk1'
    subst hk1'
    rw [show (1 : Nat) - 1 = 0 from rfl, chunksGo_zero, jobsTrace_singletons]

/-- C6 witness: three files with concurrency bound 2. -/
theorem c6_witness :
    (1 ≤ 2) ∧
      (∃ cs r, rustChunks 2 ([0, 1, 2] : List Nat) = some cs ∧
        import_sql_files [0, 1, 2] 2 (fun _ => JobOutcome.exited 0) false (Except.ok ())
          = some r ∧
        r.trace = jobsTrace cs ∧
        cs.flatten = [0, 1, 2] ∧
        (∀ c ∈ cs, c ≠ [] ∧ c.length ≤ 2) ∧
        (∀ c ∈ cs.dropLast, c.length = 2) ∧
        (∀ p, p <+: jobsTrace cs → spawnCount p ≤ joinCount p + 2) ∧
        (∀ n, spawnCount (jobsTrace (cs.take n)) = joinCount (jobsTrace (cs.take n))) ∧
        (2 = 1 → jobsTrace cs
          = [0, 1, 2].flatMap (fun q => [IEvent.spawn q, IEvent.join q]))) :=
  ⟨by decide, c6_theorem [0, 1, 2] (fun _ => JobOutcome.exited 0) 2 (by decide)⟩

/-! ## C7: per-job failure handling -/

/-- C7 counterexample: a single job whose external invocation runs and exits
with the non-zero status 1 produces an empty log — the non-zero exit is
neither inspected nor logged, contradicting the claim that it is logged with
its underlying cause (the run still succeeds, so only the logging part of the
claim fails). -/
theorem c7_counterexample :
    Option.map RunResult.logs
        (import_sql_files [0] 1 (fun _ => JobOutcome.exited 1) false (Except.ok ()))
      = some [] ∧
    Option.map RunResult.result
        (import_sql_files [0] 1 (fun _ => JobOutcome.exited 1) false (Except.ok ()))
      = some (Except.ok ()) := by
  constructor <;>
    simp [import_sql_files, rustChunks, chunksGo, jobsTrace, batchTrace, jobLog]

/-- C7 (amended): a failure to launch the external client is non-fatal and is
logged with the underlying cause, while a non-zero exit status is non-fatal
and is silently ignored (its status is never inspected, so nothing is
logged); in both cases every sibling and subsequent job is still attempted
exactly once (no retry) and the overall import returns success. -/
theorem c7_theorem {α : Type} (paths : List α) (outcome : α → JobOutcome) (k : Nat)
    (hk : 1 ≤ k) :
    ∃ r, import_sql_files paths k outcome false (Except.ok ()) = some r ∧
      r.result = Except.ok () ∧
      spawnsOf r.trace = paths ∧
      r.logs = paths.flatMap (fun p => jobLog (outcome p)) ∧
      (∀ p ∈ paths, ∀ e, outcome p = JobOutcome.launchErr e →
        (("Failed to execute mysql import command: ") ++ e) ∈ r.logs) ∧
      (∀ p ∈ paths, ∀ c, outcome p = JobOutcome.exited c → jobLog (outcome p) = []) := by
  have hk0 : ¬k = 0 := by omega
  have hflat := chunksGo_flatten (k - 1) paths
  have hlogs : (chunksGo (k - 1) paths).flatMap (fun c => c.flatMap (fun p => jobLog (outcome p)))
      = paths.flatMap (fun p => jobLog (outcome p)) := by
    rw [flatMap_flatten, hflat]
  refine ⟨⟨jobsTrace (chunksGo (k - 1) paths),
      (chunksGo (k - 1) paths).flatMap (fun c => c.flatMap (fun p => jobLog (outcome p))),
      paths.length, Except.ok ()⟩, ?_, rfl, ?_, hlogs, ?_, ?_⟩
  · simp [import_sql_files, rustChunks, hk0]
  · rw [spawnsOf_jobsTrace, hflat]
  · intro p hp e he
    rw [hlogs]
    exact List.mem_flatMap.mpr ⟨p, hp, by simp [jobLog, he]⟩
  · intro p hp c hc
    rw [hc]
    rfl

/-- C7 witness: one job whose launch fails, imported with bound 1. -/
theorem c7_witness :
    (1 ≤ 1) ∧
      (∃ r, import_sql_files [0] 1 (fun _ => JobOutcome.launchErr ("boom")) false
          (Except.ok ()) = some r ∧
        r.result = Except.ok () ∧
        spawnsOf r.trace = [0] ∧
        r.logs = [0].flatMap (fun p => jobLog ((fun _ => JobOutcome.launchErr ("boom")) p)) ∧
        (∀ p ∈ [0], ∀ e, (fun _ => JobOutcome.launchErr ("boom")) p = JobOutcome.launchErr e →
          (("Failed to execute mysql import command: ") ++ e)
            ∈ r.logs) ∧
        (∀ p ∈ [0], ∀ c, (fun _ => JobOutcome.launchErr ("boom")) p = JobOutcome.exited c →
          jobLog ((fun _ => JobOutcome.launchErr ("boom")) p) = [])) :=
  ⟨by decide, c7_theorem [0] (fun _ => JobOutcome.launchErr ("boom")) 1 (by decide)⟩

/-! ## C8: directory deletion -/

/-- C8: with the delete flag set the input directory is removed once, after
every batch has completed — the remove operation is the last event of the
trace, every file was attempted regardless of its job's outcome — and the
result of the removal is exactly the operation's result, so a removal
failure is surfaced as the returned error. -/
theorem c8_theorem {α : Type} (paths : List α) (outcome : α → JobOutcome) (k : Nat)
    (hk : 1 ≤ k) (removeResult : Except String Unit) :
    ∃ cs r, rustChunks k paths = some cs ∧
      import_sql_files paths k outcome true removeResult = some r ∧
      r.trace = jobsTrace cs ++ [IEvent.removeDir] ∧
      spawnsOf r.trace = paths ∧
      r.result = removeResult := by
  have hk0 : ¬k = 0 := by omega
  refine ⟨chunksGo (k - 1) paths,
    ⟨jobsTrace (chunksGo (k - 1) paths) ++ [IEvent.removeDir],
      (chunksGo (k - 1) paths).flatMap (fun c => c.flatMap (fun p => jobLog (outcome p))),
      paths.length, removeResult⟩, ?_, ?_, rfl, ?_, rfl⟩
  · simp [rustChunks, hk0]
  · simp [import_sql_files, rustChunks, hk0]
  · rw [spawnsOf_append, spawnsOf_jobsTrace, chunksGo_flatten]
    simp [spawnsOf]

/-- C8 witness: one file whose import fails to launch, delete requested, and
the removal itself failing — the removal is still attempted after the batch
and its error is surfaced. -/
theorem c8_witness :
    (1 ≤ 1) ∧
      (∃ cs r, rustChunks 1 ([0] : List Nat) = some cs ∧
        import_sql_files [0] 1 (fun _ => JobOutcome.launchErr ("fail")) true
          (Except.error ("denied")) = some r ∧
        r.trace = jobsTrace cs ++ [IEvent.removeDir] ∧
        spawnsOf r.trace = [0] ∧
        r.result = Except.error ("denied")) :=
  ⟨by decide, c8_theorem [0] (fun _ => JobOutcome.launchErr ("fail")) 1 (by decide)
    (Except.error ("denied"))⟩

/-! ## C9: constructed client invocation -/

/-- C9: the constructed invocation consists of, in order, a named flag for
each of host, port, user and password exactly when that parameter is
supplied, then the database name positional argument, then the redirection
of the table file into the client's input stream. -/
theorem c9_theorem (host : Option String) (port : Option Nat) (user password : Option String)
    (db path : String) :
    importArgs host port user password db path
      = specInvocation host port user password db path := by
  cases host <;> cases port <;> cases user <;> cases password <;> rfl

/-! ## C10: parallel = 0 panics -/

/-- C10: with `parallel = 0` the import panics (modelled as `none`, the
undefined `chunks(0)` partition) instead of returning an I/O error, and for
every `parallel ≥ 1` the operation runs normally — the precondition is never
validated, it is simply the domain on which `chunks` is defined. -/
theorem c10_theorem {α : Type} (paths : List α) (outcome : α → JobOutcome) (delete : Bool)
    (removeResult : Except String Unit) :
    import_sql_files paths 0 outcome delete removeResult = none ∧
    (∀ k, 1 ≤ k → (import_sql_files paths k outcome delete removeResult).isSome = true) := by
  constructor
  · rfl
  · intro k hk
    have hk0 : ¬k = 0 := by omega
    cases delete <;> simp [import_sql_files, rustChunks, hk0]

/-- C10 witness: one file, `parallel = 0` panics while `parallel = 1` runs. -/
theorem c10_witness :
    (import_sql_files ([0] : List Nat) 0 (fun _ => JobOutcome.exited 0) false
        (Except.ok ()) = none) ∧
    (1 ≤ 1) ∧
    ((import_sql_files ([0] : List Nat) 1 (fun _ => JobOutcome.exited 0) false
        (Except.ok ())).isSome = true) :=
  ⟨(c10_theorem [0] (fun _ => JobOutcome.exited 0) false (Except.ok ())).1, by decide,
    (c10_theorem [0] (fun _ => JobOutcome.exited 0) false (Except.ok ())).2 1 (by decide)⟩

end Multidump
